import Mathlib

/-!
Verification of the `metainfo` crate (cloudwego/metainfo): a per-request
metadata carrier with a tree-structured context (`MetaInfo`), a typed store,
a faststr typed store, a string map, two `kv::Node` instances
(forward/backward, each with persistent/transient/stale segments) and a
bidirectional key-prefix codec (`convert.rs`).

Modelling conventions:
  * Rust strings (`&str` / `FastStr`) are `List Char` (`Str` below); Rust's
    `strip_prefix` and per-`char` case conversion agree with the list model
    on valid UTF-8.
  * hash maps (`AHashMap` / `HashMap` / `FxHashMapRand`) are association
    lists with insert-replaces semantics; `NodupKeys` is the representation
    invariant every reachable map satisfies.
  * `TypeId` is `Nat`; the value stored for a type in the typed map is the
    opaque payload type `TVal := Nat`.
  * the `Option<Arc<MetaInfo>>` parent chain is flattened into
    `ancestors : List Frame` (nearest ancestor first); an `Arc`-shared
    parent is never mutated in the source, so value semantics is faithful.
-/

abbrev Str := List Char

/-- String literal to `Str`. -/
def chs (s : String) : Str := s.data

section KVList

variable {α β : Type} [DecidableEq α]

/-- Hash-map lookup on the association-list model. -/
def lookupKV : List (α × β) → α → Option β
  | [], _ => none
  | p :: rest, key => if p.1 = key then some p.2 else lookupKV rest key

/-- Hash-map remove. -/
def eraseKV : List (α × β) → α → List (α × β)
  | [], _ => []
  | p :: rest, key => if p.1 = key then eraseKV rest key else p :: eraseKV rest key

/-- Hash-map insert: replaces any existing entry for the key. -/
def insertKV (m : List (α × β)) (key : α) (v : β) : List (α × β) :=
  (key, v) :: eraseKV m key

/-- `HashMap::extend`: inserts every entry of `other` into `m` in order. -/
def extendKV (m other : List (α × β)) : List (α × β) :=
  other.foldl (fun acc p => insertKV acc p.1 p.2) m

/-- The keys of an association list. -/
def keysOf (m : List (α × β)) : List α := m.map Prod.fst

/-- Representation invariant of a hash map rendered as an association list. -/
def NodupKeys (m : List (α × β)) : Prop := (keysOf m).Nodup

instance (m : List (α × β)) : Decidable (NodupKeys m) := by
  unfold NodupKeys; infer_instance

theorem lookupKV_eraseKV (m : List (α × β)) (k k' : α) :
    lookupKV (eraseKV m k) k' = if k' = k then none else lookupKV m k' := by
  induction m with
  | nil => simp [eraseKV, lookupKV]
  | cons p rest ih =>
    by_cases hpk : p.1 = k
    · rw [show eraseKV (p :: rest) k = eraseKV rest k by simp [eraseKV, hpk], ih]
      by_cases hk : k' = k
      · simp [hk]
      · rw [if_neg hk, if_neg hk]
        have hp : p.1 ≠ k' := fun h => hk ((h.symm.trans hpk))
        simp [lookupKV, hp]
    · by_cases hp : p.1 = k'
      · have hk : k' ≠ k := fun h => hpk (hp.trans h)
        simp [eraseKV, hpk, lookupKV, hp, hk]
      · simp [eraseKV, hpk, lookupKV, hp, ih]

theorem lookupKV_insertKV (m : List (α × β)) (k k' : α) (v : β) :
    lookupKV (insertKV m k v) k' = if k' = k then some v else lookupKV m k' := by
  by_cases hk : k' = k
  · simp [insertKV, lookupKV, hk]
  · have : k ≠ k' := fun h => hk h.symm
    simp [insertKV, lookupKV, this, hk, lookupKV_eraseKV]

theorem lookupKV_eq_none_iff (m : List (α × β)) (k : α) :
    lookupKV m k = none ↔ k ∉ keysOf m := by
  induction m with
  | nil => simp [lookupKV, keysOf]
  | cons p rest ih =>
    by_cases hp : p.1 = k
    · simp [lookupKV, keysOf, hp]
    · have : k ≠ p.1 := fun h => hp h.symm
      simp [lookupKV, keysOf, hp, this, ih]

theorem mem_keysOf_of_lookupKV (m : List (α × β)) (k : α) (v : β)
    (h : lookupKV m k = some v) : k ∈ keysOf m := by
  by_contra hk
  rw [← lookupKV_eq_none_iff] at hk
  rw [h] at hk
  exact Option.noConfusion hk

theorem lookupKV_extendKV (a b : List (α × β)) (hb : NodupKeys b) (k : α) :
    lookupKV (extendKV a b) k =
      Option.orElse (lookupKV b k) (fun _ => lookupKV a k) := by
  induction b generalizing a with
  | nil => simp [extendKV, lookupKV, Option.orElse]
  | cons p rest ih =>
    have hb' : p.1 ∉ keysOf rest ∧ NodupKeys rest := by
      unfold NodupKeys keysOf at hb ⊢
      simpa [List.nodup_cons] using hb
    have hstep : extendKV a (p :: rest) = extendKV (insertKV a p.1 p.2) rest := rfl
    rw [hstep, ih _ hb'.2]
    by_cases hk : p.1 = k
    · subst hk
      have hnone : lookupKV rest p.1 = none := (lookupKV_eq_none_iff rest p.1).2 hb'.1
      rw [hnone]
      simp [lookupKV, lookupKV_insertKV, Option.orElse]
    · have h1 : lookupKV (insertKV a p.1 p.2) k = lookupKV a k := by
        rw [lookupKV_insertKV]; exact if_neg (fun h => hk h.symm)
      have h2 : lookupKV (p :: rest) k = lookupKV rest k := by simp [lookupKV, hk]
      rw [h1, h2]

end KVList

/-! ## Prefix constants (`lib.rs`) -/

def RPC_PREFIX_PERSISTENT : Str := chs "RPC_PERSIST_"

def RPC_PREFIX_TRANSIENT : Str := chs "RPC_TRANSIT_"

def RPC_PREFIX_BACKWARD : Str := chs "RPC_BACKWARD_"

def HTTP_PREFIX_PERSISTENT : Str := chs "rpc-persist-"

def HTTP_PREFIX_TRANSIENT : Str := chs "rpc-transit-"

def HTTP_PREFIX_BACKWARD : Str := chs "rpc-backward-"

/-! ## Key codec (`convert.rs`) -/

/-- Rust `str::strip_prefix`: `some` of the remainder when `p` is a prefix. -/
def stripPre : Str → Str → Option Str
  | [], s => some s
  | _ :: _, [] => none
  | a :: ps, b :: ss => if a = b then stripPre ps ss else none

theorem stripPre_append (p s : Str) : stripPre p (p ++ s) = some s := by
  induction p with
  | nil => rfl
  | cons a ps ih => simp [stripPre, ih]

theorem stripPre_eq_some_iff (p k r : Str) : stripPre p k = some r ↔ k = p ++ r := by
  induction p generalizing k with
  | nil => simp [stripPre]
  | cons a ps ih =>
    cases k with
    | nil => simp [stripPre]
    | cons b ss =>
      by_cases hab : a = b
      · subst hab
        simp [stripPre, ih]
      · simp [stripPre, hab]
        intro h
        exact absurd h.symm hab

theorem stripPre_eq_none_of_not_isPre (p k : Str) (h : ¬ p <+: k) :
    stripPre p k = none := by
  cases hs : stripPre p k with
  | none => rfl
  | some r =>
    exact absurd ⟨r, ((stripPre_eq_some_iff p k r).1 hs).symm⟩ h

/-- Per-char translation of `HttpConverter::to_http_format`:
`'A'..='Z' => to_ascii_lowercase, '_' => '-', other => unchanged`. -/
def toHttpChar (c : Char) : Char :=
  if 65 ≤ c.toNat ∧ c.toNat ≤ 90 then Char.ofNat (c.toNat + 32)
  else if c = '_' then '-' else c

/-- Per-char translation of `HttpConverter::to_rpc_format`:
`'a'..='z' => to_ascii_uppercase, '-' => '_', other => unchanged`. -/
def toRpcChar (c : Char) : Char :=
  if 97 ≤ c.toNat ∧ c.toNat ≤ 122 then Char.ofNat (c.toNat - 32)
  else if c = '-' then '_' else c

/-- `HttpConverter::to_http_format` on a whole key. -/
def toHttpFormat (key : Str) : Str := key.map toHttpChar

/-- `HttpConverter::to_rpc_format` on a whole key. -/
def toRpcFormat (key : Str) : Str := key.map toRpcChar

theorem char_toNat_ofNat_valid {n : Nat} (h : n < 55296) :
    (Char.ofNat n).toNat = n := by
  have hv : n.isValidChar := Or.inl h
  simp [Char.ofNat, hv, Char.ofNatAux, Char.toNat, UInt32.toNat, BitVec.toNat_ofNatLt]

theorem char_eq_of_toNat_eq {a b : Char} (h : a.toNat = b.toNat) : a = b := by
  apply Char.ext
  exact UInt32.ext h

/-- A char the RPC (upper-snake) format keeps fixed: not ASCII lowercase and
not `'-'`. These are exactly the chars on which the kebab→snake translation
undoes the snake→kebab translation. -/
def rpcCanonicalChar (c : Char) : Prop := ¬ (97 ≤ c.toNat ∧ c.toNat ≤ 122) ∧ c ≠ '-'

instance (c : Char) : Decidable (rpcCanonicalChar c) := by
  unfold rpcCanonicalChar; infer_instance

theorem toRpcChar_toHttpChar (c : Char) (hc : rpcCanonicalChar c) :
    toRpcChar (toHttpChar c) = c := by
  obtain ⟨hlow, hdash⟩ := hc
  by_cases hup : 65 ≤ c.toNat ∧ c.toNat ≤ 90
  · have h32 : c.toNat + 32 < 55296 := by omega
    have ht : (Char.ofNat (c.toNat + 32)).toNat = c.toNat + 32 :=
      char_toNat_ofNat_valid h32
    have : toHttpChar c = Char.ofNat (c.toNat + 32) := by simp [toHttpChar, hup]
    rw [this, toRpcChar, if_pos (by rw [ht]; omega), ht]
    have : c.toNat + 32 - 32 = c.toNat := by omega
    rw [this, Char.ofNat_toNat]
  · by_cases hund : c = '_'
    · subst hund
      have : toHttpChar '_' = '-' := by decide
      rw [this]
      decide
    · have hhttp : toHttpChar c = c := by simp [toHttpChar, hup, hund]
      rw [hhttp, toRpcChar, if_neg hlow, if_neg hdash]

theorem toHttpChar_toRpcChar_toHttpChar (c : Char) :
    toHttpChar (toRpcChar (toHttpChar c)) = toHttpChar c := by
  by_cases hup : 65 ≤ c.toNat ∧ c.toNat ≤ 90
  · have h32 : c.toNat + 32 < 55296 := by omega
    have ht : (Char.ofNat (c.toNat + 32)).toNat = c.toNat + 32 :=
      char_toNat_ofNat_valid h32
    have h1 : toHttpChar c = Char.ofNat (c.toNat + 32) := by simp [toHttpChar, hup]
    rw [h1, toRpcChar, if_pos (by rw [ht]; omega), ht]
    have h2 : c.toNat + 32 - 32 = c.toNat := by omega
    rw [h2, Char.ofNat_toNat, h1]
  · by_cases hund : c = '_'
    · subst hund; decide
    · have h1 : toHttpChar c = c := by simp [toHttpChar, hup, hund]
      rw [h1]
      by_cases hlow : 97 ≤ c.toNat ∧ c.toNat ≤ 122
      · have hsub : c.toNat - 32 < 55296 := by omega
        have ht : (Char.ofNat (c.toNat - 32)).toNat = c.toNat - 32 :=
          char_toNat_ofNat_valid hsub
        rw [toRpcChar, if_pos hlow]
        rw [toHttpChar, if_pos (by rw [ht]; omega), ht]
        have : c.toNat - 32 + 32 = c.toNat := by omega
        rw [this, Char.ofNat_toNat]
      · by_cases hdash : c = '-'
        · subst hdash; decide
        · rw [toRpcChar, if_neg hlow, if_neg hdash, h1]

theorem toHttpFormat_toRpcFormat_toHttpFormat (k : Str) :
    toHttpFormat (toRpcFormat (toHttpFormat k)) = toHttpFormat k := by
  unfold toHttpFormat toRpcFormat
  simp only [List.map_map]
  exact List.map_congr_left fun c _ => toHttpChar_toRpcChar_toHttpChar c

theorem toRpcFormat_toHttpFormat (k : Str) (hk : ∀ c ∈ k, rpcCanonicalChar c) :
    toRpcFormat (toHttpFormat k) = k := by
  unfold toHttpFormat toRpcFormat
  simp only [List.map_map]
  calc k.map (toRpcChar ∘ toHttpChar)
      = k.map id := List.map_congr_left fun c hc => toRpcChar_toHttpChar c (hk c hc)
    _ = k := List.map_id k

/-- `convert.rs`'s `FASTSTR_INLINE_SIZE`: an added-prefix result whose byte
length fits uses the on-stack inline buffer, longer ones a heap buffer. -/
def FASTSTR_INLINE_SIZE : Nat := 24

/-- UTF-8 byte length of a string (Rust's `str::len`). -/
def utf8Len (s : Str) : Nat := (s.map Char.utf8Size).sum

/-- Stand-in for uninitialized buffer bytes the HTTP add-prefix heap path
leaves behind (see `HttpConverter.addPrefixAndToHttpFormat`). Their content
is arbitrary in the program; every theorem below that evaluates through the
heap path holds for any value of these bytes. -/
def uninitFill (n : Nat) : Str := List.replicate n (Char.ofNat 0)

theorem utf8Size_eq_one_of_lt (c : Char) (h : c.toNat < 128) : c.utf8Size = 1 := by
  unfold Char.utf8Size
  rw [if_pos]
  exact Nat.le_of_lt_succ h

theorem utf8Size_toHttpChar (c : Char) : (toHttpChar c).utf8Size = c.utf8Size := by
  by_cases hup : 65 ≤ c.toNat ∧ c.toNat ≤ 90
  · have h32 : c.toNat + 32 < 55296 := by omega
    have ht : (Char.ofNat (c.toNat + 32)).toNat = c.toNat + 32 :=
      char_toNat_ofNat_valid h32
    have h1 : toHttpChar c = Char.ofNat (c.toNat + 32) := by simp [toHttpChar, hup]
    rw [h1, utf8Size_eq_one_of_lt _ (by rw [ht]; omega),
      utf8Size_eq_one_of_lt c (by omega)]
  · by_cases hund : c = '_'
    · subst hund
      decide
    · simp [toHttpChar, hup, hund]

theorem utf8Size_toRpcChar (c : Char) : (toRpcChar c).utf8Size = c.utf8Size := by
  by_cases hlow : 97 ≤ c.toNat ∧ c.toNat ≤ 122
  · have hsub : c.toNat - 32 < 55296 := by omega
    have ht : (Char.ofNat (c.toNat - 32)).toNat = c.toNat - 32 :=
      char_toNat_ofNat_valid hsub
    have h1 : toRpcChar c = Char.ofNat (c.toNat - 32) := by simp [toRpcChar, hlow]
    rw [h1, utf8Size_eq_one_of_lt _ (by rw [ht]; omega),
      utf8Size_eq_one_of_lt c (by omega)]
  · by_cases hdash : c = '-'
    · subst hdash
      decide
    · simp [toRpcChar, hlow, hdash]

theorem utf8Len_toHttpFormat (k : Str) : utf8Len (toHttpFormat k) = utf8Len k := by
  unfold utf8Len toHttpFormat
  rw [List.map_map]
  congr 1
  exact List.map_congr_left fun c _ => utf8Size_toHttpChar c

theorem utf8Len_toRpcFormat (k : Str) : utf8Len (toRpcFormat k) = utf8Len k := by
  unfold utf8Len toRpcFormat
  rw [List.map_map]
  congr 1
  exact List.map_congr_left fun c _ => utf8Size_toRpcChar c

namespace RpcConverter

/-- `RpcConverter::add_prefix`: concatenation. Unlike the HTTP converter,
both source paths are faithful to this: the inline path writes the key at
offset `prefix.len()`, and the heap path pushes the prefix then the key, so
each produces `prefix ++ key`. -/
def addPrefix (p key : Str) : Str := p ++ key

/-- `RpcConverter::remove_prefix`: `key.strip_prefix(prefix)`. -/
def removePrefix (p key : Str) : Option Str := stripPre p key

def addPersistentPrefix (key : Str) : Str := addPrefix RPC_PREFIX_PERSISTENT key

def addTransientPrefix (key : Str) : Str := addPrefix RPC_PREFIX_TRANSIENT key

def addBackwardPrefix (key : Str) : Str := addPrefix RPC_PREFIX_BACKWARD key

def removePersistentPrefix (key : Str) : Option Str :=
  removePrefix RPC_PREFIX_PERSISTENT key

def removeTransientPrefix (key : Str) : Option Str :=
  removePrefix RPC_PREFIX_TRANSIENT key

def removeBackwardPrefix (key : Str) : Option Str :=
  removePrefix RPC_PREFIX_BACKWARD key

end RpcConverter

namespace HttpConverter

/-- `HttpConverter::add_prefix_and_to_http_format`. Inline path
(`prefix.len() + key.len() <= FASTSTR_INLINE_SIZE`): the prefix is copied
verbatim and the key is translated to lower-kebab after it. Heap path: the
source calls `to_http_format(key, &mut buf)` on the whole buffer, writing
the converted key at offset 0 — clobbering the prefix — and leaving the
final `prefix.len()` bytes of the buffer uninitialized; that tail is
modelled by the `uninitFill` stand-in, on whose content no theorem below
depends. -/
def addPrefixAndToHttpFormat (p key : Str) : Str :=
  if utf8Len p + utf8Len key ≤ FASTSTR_INLINE_SIZE then p ++ toHttpFormat key
  else toHttpFormat key ++ uninitFill (utf8Len p)

/-- `HttpConverter::remove_prefix_and_to_rpc_format`: strip the prefix, then
translate the remainder back to upper-snake. -/
def removePrefixAndToRpcFormat (p key : Str) : Option Str :=
  (stripPre p key).map toRpcFormat

def addPersistentPrefix (key : Str) : Str :=
  addPrefixAndToHttpFormat HTTP_PREFIX_PERSISTENT key

def addTransientPrefix (key : Str) : Str :=
  addPrefixAndToHttpFormat HTTP_PREFIX_TRANSIENT key

def addBackwardPrefix (key : Str) : Str :=
  addPrefixAndToHttpFormat HTTP_PREFIX_BACKWARD key

def removePersistentPrefix (key : Str) : Option Str :=
  removePrefixAndToRpcFormat HTTP_PREFIX_PERSISTENT key

def removeTransientPrefix (key : Str) : Option Str :=
  removePrefixAndToRpcFormat HTTP_PREFIX_TRANSIENT key

def removeBackwardPrefix (key : Str) : Option Str :=
  removePrefixAndToRpcFormat HTTP_PREFIX_BACKWARD key

end HttpConverter

/-- The three prefix kinds of the codec. -/
inductive PKind : Type
  | persistent
  | transient
  | backward
deriving DecidableEq

/-- `RpcConverter::add_*_prefix` selected by kind. -/
def rpcAddByKind : PKind → Str → Str
  | .persistent => RpcConverter.addPersistentPrefix
  | .transient => RpcConverter.addTransientPrefix
  | .backward => RpcConverter.addBackwardPrefix

/-- `RpcConverter::remove_*_prefix` selected by kind. -/
def rpcRemoveByKind : PKind → Str → Option Str
  | .persistent => RpcConverter.removePersistentPrefix
  | .transient => RpcConverter.removeTransientPrefix
  | .backward => RpcConverter.removeBackwardPrefix

/-- `HttpConverter::add_*_prefix` selected by kind. -/
def httpAddByKind : PKind → Str → Str
  | .persistent => HttpConverter.addPersistentPrefix
  | .transient => HttpConverter.addTransientPrefix
  | .backward => HttpConverter.addBackwardPrefix

/-- `HttpConverter::remove_*_prefix` selected by kind. -/
def httpRemoveByKind : PKind → Str → Option Str
  | .persistent => HttpConverter.removePersistentPrefix
  | .transient => HttpConverter.removeTransientPrefix
  | .backward => HttpConverter.removeBackwardPrefix

/-- The RPC prefix constant of each kind. -/
def rpcPfxOf : PKind → Str
  | .persistent => RPC_PREFIX_PERSISTENT
  | .transient => RPC_PREFIX_TRANSIENT
  | .backward => RPC_PREFIX_BACKWARD

/-- The HTTP prefix constant of each kind. -/
def httpPfxOf : PKind → Str
  | .persistent => HTTP_PREFIX_PERSISTENT
  | .transient => HTTP_PREFIX_TRANSIENT
  | .backward => HTTP_PREFIX_BACKWARD

theorem rpcAddByKind_eq (kd : PKind) (k : Str) :
    rpcAddByKind kd k = rpcPfxOf kd ++ k := by
  cases kd <;> rfl

theorem rpcRemoveByKind_eq (kd : PKind) (k : Str) :
    rpcRemoveByKind kd k = stripPre (rpcPfxOf kd) k := by
  cases kd <;> rfl

theorem httpAddByKind_inline (kd : PKind) (k : Str)
    (h : utf8Len (httpPfxOf kd) + utf8Len k ≤ FASTSTR_INLINE_SIZE) :
    httpAddByKind kd k = httpPfxOf kd ++ toHttpFormat k := by
  cases kd <;> exact if_pos h

theorem httpRemoveByKind_eq (kd : PKind) (k : Str) :
    httpRemoveByKind kd k = (stripPre (httpPfxOf kd) k).map toRpcFormat := by
  cases kd <;> rfl

/-! ## The string-keyed segmented store (`kv.rs`) -/

abbrev SMap := List (Str × Str)

/-- `kv::Node`: three lazily-allocated string-to-string segments. -/
structure Node : Type where
  persistent : Option SMap
  transient : Option SMap
  stale : Option SMap
deriving DecidableEq

namespace Node

def emptyNode : Node := ⟨none, none, none⟩

/-- `set_*`: allocate the segment on first use, then insert. -/
def setSeg (seg : Option SMap) (k v : Str) : Option SMap :=
  some (insertKV (seg.getD []) k v)

/-- `get_*`. -/
def getSeg (seg : Option SMap) (k : Str) : Option Str :=
  match seg with
  | some m => lookupKV m k
  | none => none

/-- `del_*`: no-op when the segment was never allocated. -/
def delSeg (seg : Option SMap) (k : Str) : Option SMap :=
  seg.map (fun m => eraseKV m k)

/-- Per-segment body of `Node::extend`. -/
def extendSeg (a b : Option SMap) : Option SMap :=
  match b with
  | none => a
  | some v =>
    match a with
    | none => some v
    | some m => some (extendKV m v)

def setPersistent (n : Node) (k v : Str) : Node :=
  { n with persistent := setSeg n.persistent k v }

def setTransient (n : Node) (k v : Str) : Node :=
  { n with transient := setSeg n.transient k v }

def setStale (n : Node) (k v : Str) : Node :=
  { n with stale := setSeg n.stale k v }

def getPersistent (n : Node) (k : Str) : Option Str := getSeg n.persistent k

def getTransient (n : Node) (k : Str) : Option Str := getSeg n.transient k

def getStale (n : Node) (k : Str) : Option Str := getSeg n.stale k

def delPersistent (n : Node) (k : Str) : Node :=
  { n with persistent := delSeg n.persistent k }

def delTransient (n : Node) (k : Str) : Node :=
  { n with transient := delSeg n.transient k }

def delStale (n : Node) (k : Str) : Node :=
  { n with stale := delSeg n.stale k }

def getAllPersistents (n : Node) : Option SMap := n.persistent

def getAllTransients (n : Node) : Option SMap := n.transient

def getAllStales (n : Node) : Option SMap := n.stale

/-- `Node::extend(other)`: per segment, adopt wholesale when absent locally,
else merge with `other`'s entries winning. -/
def extend (a b : Node) : Node :=
  ⟨extendSeg a.persistent b.persistent,
   extendSeg a.transient b.transient,
   extendSeg a.stale b.stale⟩

/-- Modelled from the spec: `kv::Node::clear` (the `kv.rs` variant under
`src/` predates `MetaInfo::clear` and lacks `clear`; the spec says `clear()`
"empties ... both KeyValueNodes"). Each allocated segment is emptied in
place. -/
def clear (n : Node) : Node :=
  ⟨n.persistent.map (fun _ => []),
   n.transient.map (fun _ => []),
   n.stale.map (fun _ => [])⟩

end Node

/-! ## The context tree (`lib.rs`) -/

abbrev TypeId := Nat

abbrev TVal := Nat

abbrev TMap := List (TypeId × TVal)

abbrev FMap := List (TypeId × Str)

/-- The per-context fields of one `MetaInfo` (everything but the parent
link): the typed map, string map, faststr typed map and the two
forward/backward `kv::Node`s. -/
structure Frame : Type where
  tmap : Option TMap
  smap : Option SMap
  faststrTmap : Option FMap
  forwardNode : Option Node
  backwardNode : Option Node
deriving DecidableEq

/-- `MetaInfo`. `top` holds the context's own fields; `ancestors` is the
flattened `Option<Arc<MetaInfo>>` parent chain, nearest ancestor first
(`[]` models `parent == None`). -/
structure MetaInfo : Type where
  top : Frame
  ancestors : List Frame
deriving DecidableEq

/-- The local typed-map hit of one scope, `tmap.and_then(|t| t.get())`. -/
def tmapHit (t : TypeId) (f : Frame) : Option TVal :=
  f.tmap.bind (fun mp => lookupKV mp t)

/-- The local string-map hit of one scope. -/
def smapHit (k : Str) (f : Frame) : Option Str :=
  f.smap.bind (fun mp => lookupKV mp k)

/-- The local faststr-map hit of one scope. -/
def fmapHit (t : TypeId) (f : Frame) : Option Str :=
  f.faststrTmap.bind (fun mp => lookupKV mp t)

/-- The recursive lookup of `MetaInfo::get` and friends over a scope chain:
check the scope's own store, `or_else` recurse into the parent chain. -/
def chainFind {V : Type} (g : Frame → Option V) : List Frame → Option V
  | [] => none
  | f :: rest =>
    match g f with
    | some v => some v
    | none => chainFind g rest

namespace MetaInfo

def new : MetaInfo := ⟨⟨none, none, none, none, none⟩, []⟩

/-- The parent context: `None` for a root, else the nearest ancestor frame
re-folded together with the rest of the chain. -/
def parentCtx (m : MetaInfo) : Option MetaInfo :=
  match m.ancestors with
  | [] => none
  | f :: rest => some ⟨f, rest⟩

/-- `MetaInfo::from(parent)`: wraps the parent and clones the parent's
current forward/backward nodes; typed/string stores start empty. -/
def fromParent (parent : MetaInfo) : MetaInfo :=
  ⟨⟨none, none, none, parent.top.forwardNode, parent.top.backwardNode⟩,
   parent.top :: parent.ancestors⟩

/-- `MetaInfo::derive`: when no local typed/string store was ever allocated,
return `(self, clone sharing self's parent)`; otherwise move the
forward/backward nodes out of `self`, promote `self` to an `Arc` parent and
return two fresh children of it. -/
def derive (m : MetaInfo) : MetaInfo × MetaInfo :=
  if m.top.tmap = none ∧ m.top.smap = none ∧ m.top.faststrTmap = none then
    (m, ⟨⟨none, none, none, m.top.forwardNode, m.top.backwardNode⟩, m.ancestors⟩)
  else
    let promoted : Frame := { m.top with forwardNode := none, backwardNode := none }
    (⟨⟨none, none, none, m.top.forwardNode, m.top.backwardNode⟩, promoted :: m.ancestors⟩,
     ⟨⟨none, none, none, m.top.forwardNode, m.top.backwardNode⟩, promoted :: m.ancestors⟩)

/-- `MetaInfo::insert::<T>`. -/
def insert (m : MetaInfo) (t : TypeId) (v : TVal) : MetaInfo :=
  { m with top := { m.top with tmap := some (insertKV (m.top.tmap.getD []) t v) } }

/-- `MetaInfo::insert_faststr::<T>`. -/
def insertFaststr (m : MetaInfo) (t : TypeId) (v : Str) : MetaInfo :=
  { m with top :=
      { m.top with faststrTmap := some (insertKV (m.top.faststrTmap.getD []) t v) } }

/-- `MetaInfo::insert_string`. -/
def insertString (m : MetaInfo) (k v : Str) : MetaInfo :=
  { m with top := { m.top with smap := some (insertKV (m.top.smap.getD []) k v) } }

/-- `MetaInfo::get::<T>`: local typed map, `or_else` the parent chain. -/
def get (m : MetaInfo) (t : TypeId) : Option TVal :=
  chainFind (tmapHit t) (m.top :: m.ancestors)

/-- `MetaInfo::get_string`. -/
def getString (m : MetaInfo) (k : Str) : Option Str :=
  chainFind (smapHit k) (m.top :: m.ancestors)

/-- `MetaInfo::get_faststr::<T>`. -/
def getFaststr (m : MetaInfo) (t : TypeId) : Option Str :=
  chainFind (fmapHit t) (m.top :: m.ancestors)

/-- `MetaInfo::remove::<T>`: removes from the local scope only, returning
the removed value. -/
def remove (m : MetaInfo) (t : TypeId) : Option TVal × MetaInfo :=
  (m.top.tmap.bind (fun mp => lookupKV mp t),
   { m with top := { m.top with tmap := m.top.tmap.map (fun mp => eraseKV mp t) } })

/-- `MetaInfo::remove_string`. -/
def removeString (m : MetaInfo) (k : Str) : Option Str × MetaInfo :=
  (m.top.smap.bind (fun mp => lookupKV mp k),
   { m with top := { m.top with smap := m.top.smap.map (fun mp => eraseKV mp k) } })

/-- `MetaInfo::remove_faststr::<T>`. -/
def removeFaststr (m : MetaInfo) (t : TypeId) : Option Str × MetaInfo :=
  (m.top.faststrTmap.bind (fun mp => lookupKV mp t),
   { m with top :=
       { m.top with faststrTmap := m.top.faststrTmap.map (fun mp => eraseKV mp t) } })

/-- `MetaInfo::clear`: drop the parent link, empty every allocated local
store and both nodes (allocation status is kept, contents are emptied). -/
def clear (m : MetaInfo) : MetaInfo :=
  ⟨⟨m.top.tmap.map (fun _ => []),
    m.top.smap.map (fun _ => []),
    m.top.faststrTmap.map (fun _ => []),
    m.top.forwardNode.map Node.clear,
    m.top.backwardNode.map Node.clear⟩, []⟩

end MetaInfo

namespace MetaInfo

def ensureNode (f : Option Node) : Node := f.getD Node.emptyNode

/-- `get_impl!` instances for the forward node: read the context's own
forward node only (no parent fallback). -/
def getPersistent (m : MetaInfo) (k : Str) : Option Str :=
  match m.top.forwardNode with
  | some n => n.getPersistent k
  | none => none

def getTransient (m : MetaInfo) (k : Str) : Option Str :=
  match m.top.forwardNode with
  | some n => n.getTransient k
  | none => none

/-- `get_upstream` reads the forward node's `stale` segment. -/
def getUpstream (m : MetaInfo) (k : Str) : Option Str :=
  match m.top.forwardNode with
  | some n => n.getStale k
  | none => none

/-- `set_impl!` instances: `ensure_forward_node` / `ensure_backward_node`,
then set. -/
def setPersistent (m : MetaInfo) (k v : Str) : MetaInfo :=
  { m with top := { m.top with
      forwardNode := some ((ensureNode m.top.forwardNode).setPersistent k v) } }

def setTransient (m : MetaInfo) (k v : Str) : MetaInfo :=
  { m with top := { m.top with
      forwardNode := some ((ensureNode m.top.forwardNode).setTransient k v) } }

/-- `set_upstream` writes the forward node's `stale` segment. -/
def setUpstream (m : MetaInfo) (k v : Str) : MetaInfo :=
  { m with top := { m.top with
      forwardNode := some ((ensureNode m.top.forwardNode).setStale k v) } }

def getAllPersistents (m : MetaInfo) : Option SMap :=
  match m.top.forwardNode with
  | some n => n.getAllPersistents
  | none => none

def getAllTransients (m : MetaInfo) : Option SMap :=
  match m.top.forwardNode with
  | some n => n.getAllTransients
  | none => none

def getAllUpstreams (m : MetaInfo) : Option SMap :=
  match m.top.forwardNode with
  | some n => n.getAllStales
  | none => none

/-- `get_impl!`/`set_impl!` instances for the backward node. -/
def getBackwardTransient (m : MetaInfo) (k : Str) : Option Str :=
  match m.top.backwardNode with
  | some n => n.getTransient k
  | none => none

/-- `get_backward_downstream` reads the backward node's `stale` segment. -/
def getBackwardDownstream (m : MetaInfo) (k : Str) : Option Str :=
  match m.top.backwardNode with
  | some n => n.getStale k
  | none => none

def setBackwardTransient (m : MetaInfo) (k v : Str) : MetaInfo :=
  { m with top := { m.top with
      backwardNode := some ((ensureNode m.top.backwardNode).setTransient k v) } }

def setBackwardDownstream (m : MetaInfo) (k v : Str) : MetaInfo :=
  { m with top := { m.top with
      backwardNode := some ((ensureNode m.top.backwardNode).setStale k v) } }

def getAllBackwardTransients (m : MetaInfo) : Option SMap :=
  match m.top.backwardNode with
  | some n => n.getAllTransients
  | none => none

def getAllBackwardDownstreams (m : MetaInfo) : Option SMap :=
  match m.top.backwardNode with
  | some n => n.getAllStales
  | none => none

end MetaInfo

/-- The `Converter` trait as consumed by the bulk export: the two
prefix-adding methods. -/
structure Converter : Type where
  addPersistent : Str → Str
  addTransient : Str → Str

/-- `RpcConverter` as a `Converter`. -/
def rpcConv : Converter :=
  ⟨RpcConverter.addPersistentPrefix, RpcConverter.addTransientPrefix⟩

/-- `HttpConverter` as a `Converter`. -/
def httpConv : Converter :=
  ⟨HttpConverter.addPersistentPrefix, HttpConverter.addTransientPrefix⟩

namespace MetaInfo

/-- `MetaInfo::get_all_persistents_and_transients`: `None` when the forward
node is absent or both segments are empty; otherwise a fresh map extended
first with the re-prefixed persistent entries, then with the re-prefixed
transient entries. -/
def getAllPersistentsAndTransients (m : MetaInfo) (conv : Converter) : Option SMap :=
  match m.top.forwardNode with
  | none => none
  | some node =>
    let ps := node.getAllPersistents
    let ts := node.getAllTransients
    if (ps.getD []).length + (ts.getD []).length = 0 then none
    else
      some (extendKV
        (extendKV [] ((ps.getD []).map (fun kv => (conv.addPersistent kv.1, kv.2))))
        ((ts.getD []).map (fun kv => (conv.addTransient kv.1, kv.2))))

def getAllPersistentsAndTransientsWithRpcPrefix (m : MetaInfo) : Option SMap :=
  m.getAllPersistentsAndTransients rpcConv

def getAllPersistentsAndTransientsWithHttpPrefix (m : MetaInfo) : Option SMap :=
  m.getAllPersistentsAndTransients httpConv

/-- `strip_rpc_prefix_and_set_persistent`: write only when the RPC
persistent prefix strips. -/
def stripRpcPrefixAndSetPersistent (m : MetaInfo) (key v : Str) : MetaInfo :=
  match RpcConverter.removePersistentPrefix key with
  | some k => m.setPersistent k v
  | none => m

/-- `strip_rpc_prefix_and_set_upstream`: strips the RPC *transient* prefix
but stores into the `stale` (upstream) segment. -/
def stripRpcPrefixAndSetUpstream (m : MetaInfo) (key v : Str) : MetaInfo :=
  match RpcConverter.removeTransientPrefix key with
  | some k => m.setUpstream k v
  | none => m

def stripHttpPrefixAndSetPersistent (m : MetaInfo) (key v : Str) : MetaInfo :=
  match HttpConverter.removePersistentPrefix key with
  | some k => m.setPersistent k v
  | none => m

def stripHttpPrefixAndSetUpstream (m : MetaInfo) (key v : Str) : MetaInfo :=
  match HttpConverter.removeTransientPrefix key with
  | some k => m.setUpstream k v
  | none => m

def stripRpcPrefixAndSetBackwardDownstream (m : MetaInfo) (key v : Str) : MetaInfo :=
  match RpcConverter.removeBackwardPrefix key with
  | some k => m.setBackwardDownstream k v
  | none => m

def stripHttpPrefixAndSetBackwardDownstream (m : MetaInfo) (key v : Str) : MetaInfo :=
  match HttpConverter.removeBackwardPrefix key with
  | some k => m.setBackwardDownstream k v
  | none => m

end MetaInfo

/-! ## Chain-walk lemmas -/

theorem chainFind_eq_head_filterMap {V : Type} (g : Frame → Option V)
    (l : List Frame) : chainFind g l = (l.filterMap g).head? := by
  induction l with
  | nil => rfl
  | cons f rest ih =>
    cases hf : g f <;> simp [chainFind, hf, ih]

theorem chainFind_eq_none_iff {V : Type} (g : Frame → Option V)
    (l : List Frame) : chainFind g l = none ↔ ∀ f ∈ l, g f = none := by
  rw [chainFind_eq_head_filterMap]
  rw [List.head?_eq_none_iff, List.filterMap_eq_nil_iff]

/-! ## C1 -/

/-- C1: `get::<T>()`, `get_string(key)` and `get_faststr::<T>()` return the
hit in the current scope's local store when one is present, otherwise the
first hit walking the ancestor chain nearest-first (the scope list is
`top :: ancestors`, so the current scope is consulted first), and return
`none` exactly when no scope on the chain holds a value. -/
theorem c1_lookup_first_hit (m : MetaInfo) (t ft : TypeId) (k : Str) :
    (m.get t = ((m.top :: m.ancestors).filterMap (tmapHit t)).head?
      ∧ (m.get t = none ↔ ∀ f ∈ m.top :: m.ancestors, tmapHit t f = none))
    ∧ (m.getString k = ((m.top :: m.ancestors).filterMap (smapHit k)).head?
      ∧ (m.getString k = none ↔ ∀ f ∈ m.top :: m.ancestors, smapHit k f = none))
    ∧ (m.getFaststr ft = ((m.top :: m.ancestors).filterMap (fmapHit ft)).head?
      ∧ (m.getFaststr ft = none ↔ ∀ f ∈ m.top :: m.ancestors, fmapHit ft f = none)) :=
  ⟨⟨chainFind_eq_head_filterMap _ _, chainFind_eq_none_iff _ _⟩,
   ⟨chainFind_eq_head_filterMap _ _, chainFind_eq_none_iff _ _⟩,
   ⟨chainFind_eq_head_filterMap _ _, chainFind_eq_none_iff _ _⟩⟩

/-! ## C2 -/

/-- The C2 counterexample context: `insert::<T>` followed by `remove::<T>`
leaves an *allocated but empty* typed map, so the context holds no local
typed/string overrides. -/
def c2cexCtx : MetaInfo := ((MetaInfo.new.insert 0 0).remove 0).2

/-- C2 counterexample: `c2cexCtx` holds no local typed/string override (all
three local stores have no entries) and its parent is `None`, yet `derive`
takes the promoting branch: the children's parent is `Some` (the promoted
original), not the original's parent. -/
theorem c2_derive_counterexample :
    (∀ t, tmapHit t c2cexCtx.top = none)
    ∧ (∀ k, smapHit k c2cexCtx.top = none)
    ∧ (∀ ft, fmapHit ft c2cexCtx.top = none)
    ∧ c2cexCtx.parentCtx = none
    ∧ c2cexCtx.derive.2.parentCtx ≠ none
    ∧ c2cexCtx.derive.1.parentCtx ≠ none := by
  have htm : c2cexCtx.top.tmap = some [] := rfl
  refine ⟨?_, ?_, ?_, by decide, by decide, by decide⟩
  · intro t
    simp [tmapHit, htm, lookupKV]
  · intro k
    simp [smapHit, show c2cexCtx.top.smap = none from rfl]
  · intro ft
    simp [fmapHit, show c2cexCtx.top.faststrTmap = none from rfl]

/-- C2 (amended): `derive()` on a context whose typed, string and faststr
stores were never *allocated* (`tmap`/`smap`/`faststr_tmap` are all `None`
— not merely empty) returns `self` and a sibling whose parent, local stores
and cloned forward/backward nodes match; otherwise (even when the allocated
stores hold no entries) the original is promoted — with its
forward/backward nodes moved out — into a shared parent, and the two
returned contexts are fresh children of exactly that promoted context. -/
theorem c2_derive_branches (m : MetaInfo) :
    ((m.top.tmap = none ∧ m.top.smap = none ∧ m.top.faststrTmap = none) →
      (m.derive.1 = m
        ∧ m.derive.2.ancestors = m.ancestors
        ∧ m.derive.2.parentCtx = m.parentCtx
        ∧ m.derive.2.top.tmap = none ∧ m.derive.2.top.smap = none
        ∧ m.derive.2.top.faststrTmap = none
        ∧ m.derive.2.top.forwardNode = m.top.forwardNode
        ∧ m.derive.2.top.backwardNode = m.top.backwardNode))
    ∧ (¬ (m.top.tmap = none ∧ m.top.smap = none ∧ m.top.faststrTmap = none) →
      (m.derive.1.parentCtx
          = some ⟨{ m.top with forwardNode := none, backwardNode := none }, m.ancestors⟩
        ∧ m.derive.2.parentCtx
          = some ⟨{ m.top with forwardNode := none, backwardNode := none }, m.ancestors⟩
        ∧ m.derive.1.top.tmap = none ∧ m.derive.1.top.smap = none
        ∧ m.derive.1.top.faststrTmap = none
        ∧ m.derive.2.top.tmap = none ∧ m.derive.2.top.smap = none
        ∧ m.derive.2.top.faststrTmap = none)) := by
  constructor
  · intro h
    rw [MetaInfo.derive, if_pos h]
    refine ⟨rfl, rfl, ?_, rfl, rfl, rfl, rfl, rfl⟩
    unfold MetaInfo.parentCtx
    rfl
  · intro h
    rw [MetaInfo.derive, if_neg h]
    exact ⟨rfl, rfl, rfl, rfl, rfl, rfl, rfl, rfl⟩

/-! ## C3 -/

/-- C3 counterexample: in the HTTP (lower-kebab) style the round-trip
`remove_prefix(add_prefix(k)) == Some(k)` fails at `k = "a"`: the suffix
translation maps it to `"A"`. -/
theorem c3_roundtrip_counterexample :
    HttpConverter.removePersistentPrefix
      (HttpConverter.addPersistentPrefix (chs "a")) ≠ some (chs "a") := by
  decide

/-- C3 (amended): for every key `k` and every prefix kind, the RPC style
satisfies both round-trip laws unconditionally. The HTTP style satisfies
them only on the inline fast path (prefix byte length + key byte length ≤
24): there, `add(remove(add(k))) == add(k)` holds, and
`remove(add(k)) == Some(k)` holds for keys in canonical upper-snake form
(no ASCII lowercase letter and no `'-'` — by the counterexample the law
fails on other keys). Beyond the inline size the HTTP heap path clobbers
the prefix with the converted key (source defect), so no round-trip law
holds there: for thirteen `'A'`s, `remove(add(k))` is `None` (true for any
content of the uninitialized tail, since the strip fails on the converted
key's own leading bytes). -/
theorem c3_roundtrip (kd : PKind) (k : Str) :
    rpcRemoveByKind kd (rpcAddByKind kd k) = some k
    ∧ (rpcRemoveByKind kd (rpcAddByKind kd k)).map (rpcAddByKind kd)
        = some (rpcAddByKind kd k)
    ∧ (utf8Len (httpPfxOf kd) + utf8Len k ≤ FASTSTR_INLINE_SIZE →
        ((httpRemoveByKind kd (httpAddByKind kd k)).map (httpAddByKind kd)
            = some (httpAddByKind kd k)
          ∧ ((∀ c ∈ k, rpcCanonicalChar c) →
              httpRemoveByKind kd (httpAddByKind kd k) = some k)))
    ∧ httpRemoveByKind PKind.persistent
        (httpAddByKind PKind.persistent (chs "AAAAAAAAAAAAA")) = none := by
  have h1 : rpcRemoveByKind kd (rpcAddByKind kd k) = some k := by
    rw [rpcRemoveByKind_eq, rpcAddByKind_eq]
    exact stripPre_append _ _
  refine ⟨h1, by rw [h1]; rfl, ?_, by decide⟩
  intro hlen
  have hadd : httpAddByKind kd k = httpPfxOf kd ++ toHttpFormat k :=
    httpAddByKind_inline kd k hlen
  have h2 : httpRemoveByKind kd (httpAddByKind kd k)
      = some (toRpcFormat (toHttpFormat k)) := by
    rw [httpRemoveByKind_eq, hadd, stripPre_append]
    rfl
  constructor
  · rw [h2]
    show some (httpAddByKind kd (toRpcFormat (toHttpFormat k)))
        = some (httpAddByKind kd k)
    have hlen2 : utf8Len (httpPfxOf kd) + utf8Len (toRpcFormat (toHttpFormat k))
        ≤ FASTSTR_INLINE_SIZE := by
      rw [utf8Len_toRpcFormat, utf8Len_toHttpFormat]
      exact hlen
    rw [httpAddByKind_inline kd _ hlen2, hadd, toHttpFormat_toRpcFormat_toHttpFormat]
  · intro hk
    rw [h2, toRpcFormat_toHttpFormat k hk]

/-! ## C4 -/

/-- C4: `remove::<T>()`, `remove_string(key)` and `remove_faststr::<T>()`
delete only from the current scope's local store: after a local insert
followed by a local removal, the lookup equals the walk over the untouched
ancestor chain (so whenever an ancestor holds a value for the same type or
key, that value is visible again), and the ancestor chain itself is
unchanged. -/
theorem c4_remove_local_only (m : MetaInfo) (t ft : TypeId) (k : Str)
    (w : TVal) (ws wf : Str) :
    (((m.insert t w).remove t).2.ancestors = m.ancestors
      ∧ ((m.insert t w).remove t).2.get t = chainFind (tmapHit t) m.ancestors)
    ∧ (((m.insertString k ws).removeString k).2.ancestors = m.ancestors
      ∧ ((m.insertString k ws).removeString k).2.getString k
          = chainFind (smapHit k) m.ancestors)
    ∧ (((m.insertFaststr ft wf).removeFaststr ft).2.ancestors = m.ancestors
      ∧ ((m.insertFaststr ft wf).removeFaststr ft).2.getFaststr ft
          = chainFind (fmapHit ft) m.ancestors) := by
  refine ⟨⟨rfl, ?_⟩, ⟨rfl, ?_⟩, ⟨rfl, ?_⟩⟩
  · have hhit : lookupKV (eraseKV (insertKV (m.top.tmap.getD []) t w) t) t = none := by
      rw [lookupKV_eraseKV]; simp
    simp [MetaInfo.get, chainFind, tmapHit, MetaInfo.insert, MetaInfo.remove, hhit]
  · have hhit : lookupKV (eraseKV (insertKV (m.top.smap.getD []) k ws) k) k = none := by
      rw [lookupKV_eraseKV]; simp
    simp [MetaInfo.getString, chainFind, smapHit, MetaInfo.insertString,
      MetaInfo.removeString, hhit]
  · have hhit : lookupKV (eraseKV (insertKV (m.top.faststrTmap.getD []) ft wf) ft) ft
        = none := by
      rw [lookupKV_eraseKV]; simp
    simp [MetaInfo.getFaststr, chainFind, fmapHit, MetaInfo.insertFaststr,
      MetaInfo.removeFaststr, hhit]

/-! ## C5 -/

/-- The forward node's persistent entries ( `[]` when absent). -/
def persSeg (m : MetaInfo) : SMap :=
  match m.top.forwardNode with
  | none => []
  | some n => n.persistent.getD []

/-- The forward node's transient entries ( `[]` when absent). -/
def transSeg (m : MetaInfo) : SMap :=
  match m.top.forwardNode with
  | none => []
  | some n => n.transient.getD []

theorem lookupKV_map_fst_inv {f : Str → Str} (l : SMap) (key v : Str)
    (h : lookupKV (l.map (fun p => (f p.1, p.2))) key = some v) :
    ∃ k0, key = f k0 ∧ lookupKV l k0 = some v := by
  induction l with
  | nil => exact Option.noConfusion h
  | cons p rest ih =>
    by_cases hp : f p.1 = key
    · refine ⟨p.1, hp.symm, ?_⟩
      have : some p.2 = some v := by
        rw [← h]
        simp [lookupKV, hp]
      rw [lookupKV, if_pos rfl]
      exact this
    · have h' : lookupKV (rest.map (fun p => (f p.1, p.2))) key = some v := by
        rw [← h]
        simp [lookupKV, hp]
      obtain ⟨k0, hk0, hl⟩ := ih h'
      refine ⟨k0, hk0, ?_⟩
      have hne : p.1 ≠ k0 := fun he => hp (by rw [he, ← hk0])
      rw [lookupKV, if_neg hne]
      exact hl

theorem lookupKV_map_fst_inj {f : Str → Str} (l : SMap) (k0 : Str)
    (hinj : ∀ k' ∈ keysOf l, f k' = f k0 → k' = k0) :
    lookupKV (l.map (fun p => (f p.1, p.2))) (f k0) = lookupKV l k0 := by
  induction l with
  | nil => rfl
  | cons p rest ih =>
    by_cases hp : p.1 = k0
    · simp [lookupKV, hp]
    · have hf : f p.1 ≠ f k0 :=
        fun he => hp (hinj p.1 (by simp [keysOf]) he)
      rw [show ((p :: rest).map (fun p => (f p.1, p.2)))
            = (f p.1, p.2) :: rest.map (fun p => (f p.1, p.2)) from rfl]
      rw [lookupKV, if_neg hf, lookupKV, if_neg hp]
      exact ih (fun k' hk' he => hinj k' (by simp [keysOf] at hk' ⊢; exact Or.inr hk') he)

theorem nodupKeys_map_fst {f : Str → Str} (l : SMap) (hnd : NodupKeys l)
    (hinj : ∀ k1 ∈ keysOf l, ∀ k2 ∈ keysOf l, f k1 = f k2 → k1 = k2) :
    NodupKeys (l.map (fun p => (f p.1, p.2))) := by
  unfold keysOf at hinj
  unfold NodupKeys keysOf at hnd ⊢
  rw [List.map_map]
  have he : (l.map (Prod.fst ∘ fun p => (f p.1, p.2))) = (l.map Prod.fst).map f := by
    rw [List.map_map]
    rfl
  rw [he]
  refine List.Nodup.map_on ?_ hnd
  intro x hx y hy hxy
  exact hinj x hx y hy hxy

/-- The C5 counterexample context: two distinct persistent keys `"A"` and
`"a"` that the HTTP style maps to the same prefixed key. -/
def c5cexCtx : MetaInfo :=
  (MetaInfo.new.setPersistent (chs "A") (chs "1")).setPersistent (chs "a") (chs "2")

/-- C5 counterexample: the HTTP-style bulk export of `c5cexCtx` cannot
contain every persistent entry under its re-prefixed key — the keys `"A"`
and `"a"` collide at `"rpc-persist-a"`, so one of the two values is
dropped, falsifying "contains exactly the union with the prefix re-added to
every key". -/
theorem c5_bulk_export_counterexample :
    ¬ (∀ k0 v, lookupKV (persSeg c5cexCtx) k0 = some v →
        lookupKV ((c5cexCtx.getAllPersistentsAndTransients httpConv).getD [])
          (httpConv.addPersistent k0) = some v) := by
  intro h
  have h1 := h (chs "A") (chs "1") (by decide)
  have h2 := h (chs "a") (chs "2") (by decide)
  have e1 : httpConv.addPersistent (chs "A") = httpConv.addPersistent (chs "a") := by
    decide
  rw [e1] at h1
  exact absurd (h1.symm.trans h2) (by decide)

/-- C5 (amended): the forward prefixed bulk export is `None` exactly when
the persistent and transient segments are both empty or absent; otherwise
it is `Some` of a mapping holding exactly the union of the two segments
re-keyed through the style's add-prefix methods — *provided* the re-keying
is collision-free on the stored keys (hypotheses `hpinj`/`htinj`/`hcross`;
always true in the RPC style, and true in the HTTP style only when no two
stored keys collapse to the same kebab form — the counterexample shows the
claim fails otherwise). Re-keying coincides with "the prefix re-added to
every key" for the RPC style on all keys, and for the HTTP style exactly on
the inline path (prefix byte length + key byte length ≤ 24) — the last two
conjuncts; beyond that size the HTTP add-prefix clobbers the prefix (source
heap-path defect, see `HttpConverter.addPrefixAndToHttpFormat`), so the
exported key is not the prefixed key. The two concrete scenarios of the
claim hold: after `set_persistent("TEST_KEY","v")` the RPC export maps
`RPC_PERSIST_TEST_KEY ↦ v` and the HTTP export maps
`rpc-persist-test-key ↦ v`. -/
theorem c5_bulk_export (m : MetaInfo) (conv : Converter)
    (hpnd : NodupKeys (persSeg m)) (htnd : NodupKeys (transSeg m))
    (hpinj : ∀ k1 ∈ keysOf (persSeg m), ∀ k2 ∈ keysOf (persSeg m),
      conv.addPersistent k1 = conv.addPersistent k2 → k1 = k2)
    (htinj : ∀ k1 ∈ keysOf (transSeg m), ∀ k2 ∈ keysOf (transSeg m),
      conv.addTransient k1 = conv.addTransient k2 → k1 = k2)
    (hcross : ∀ k1 ∈ keysOf (persSeg m), ∀ k2 ∈ keysOf (transSeg m),
      conv.addPersistent k1 ≠ conv.addTransient k2) :
    (m.getAllPersistentsAndTransients conv = none
        ↔ persSeg m = [] ∧ transSeg m = [])
    ∧ (∀ M, m.getAllPersistentsAndTransients conv = some M →
        ∀ key v, lookupKV M key = some v ↔
          ((∃ k0, key = conv.addPersistent k0 ∧ lookupKV (persSeg m) k0 = some v)
           ∨ (∃ k0, key = conv.addTransient k0 ∧ lookupKV (transSeg m) k0 = some v)))
    ∧ (MetaInfo.new.setPersistent (chs "TEST_KEY")
        (chs "v")).getAllPersistentsAndTransientsWithRpcPrefix
        = some [(chs "RPC_PERSIST_TEST_KEY", chs "v")]
    ∧ (MetaInfo.new.setPersistent (chs "TEST_KEY")
        (chs "v")).getAllPersistentsAndTransientsWithHttpPrefix
        = some [(chs "rpc-persist-test-key", chs "v")]
    ∧ (∀ k0, rpcConv.addPersistent k0 = RPC_PREFIX_PERSISTENT ++ k0
        ∧ rpcConv.addTransient k0 = RPC_PREFIX_TRANSIENT ++ k0)
    ∧ (∀ k0, utf8Len HTTP_PREFIX_PERSISTENT + utf8Len k0 ≤ FASTSTR_INLINE_SIZE →
          httpConv.addPersistent k0 = HTTP_PREFIX_PERSISTENT ++ toHttpFormat k0)
    ∧ (∀ k0, utf8Len HTTP_PREFIX_TRANSIENT + utf8Len k0 ≤ FASTSTR_INLINE_SIZE →
          httpConv.addTransient k0 = HTTP_PREFIX_TRANSIENT ++ toHttpFormat k0) := by
  have hunf : m.getAllPersistentsAndTransients conv =
      (if (persSeg m).length + (transSeg m).length = 0 then none
       else some (extendKV
          (extendKV [] ((persSeg m).map (fun kv => (conv.addPersistent kv.1, kv.2))))
          ((transSeg m).map (fun kv => (conv.addTransient kv.1, kv.2))))) := by
    cases hf : m.top.forwardNode with
    | none =>
      simp [MetaInfo.getAllPersistentsAndTransients, persSeg, transSeg, hf, extendKV]
    | some node =>
      have hps : persSeg m = node.persistent.getD [] := by simp [persSeg, hf]
      have hts : transSeg m = node.transient.getD [] := by simp [transSeg, hf]
      rw [hps, hts]
      simp [MetaInfo.getAllPersistentsAndTransients, hf, Node.getAllPersistents,
        Node.getAllTransients]
  refine ⟨?_, ?_, by decide, by decide, fun k0 => ⟨rfl, rfl⟩,
    fun k0 h => if_pos h, fun k0 h => if_pos h⟩
  · rw [hunf]
    by_cases hz : (persSeg m).length + (transSeg m).length = 0
    · rw [if_pos hz]
      rw [Nat.add_eq_zero] at hz
      rw [List.length_eq_zero] at hz
      rw [List.length_eq_zero] at hz
      simp [hz.1, hz.2]
    · rw [if_neg hz]
      simp only [reduceCtorEq, false_iff]
      intro hc
      exact hz (by rw [hc.1, hc.2]; rfl)
  · intro M hM key v
    rw [hunf] at hM
    by_cases hz : (persSeg m).length + (transSeg m).length = 0
    · rw [if_pos hz] at hM
      exact Option.noConfusion hM
    · rw [if_neg hz] at hM
      have hMe := (Option.some.inj hM).symm
      subst hMe
      have hpmnd : NodupKeys
          ((persSeg m).map (fun kv => (conv.addPersistent kv.1, kv.2))) :=
        nodupKeys_map_fst _ hpnd hpinj
      have htmnd : NodupKeys
          ((transSeg m).map (fun kv => (conv.addTransient kv.1, kv.2))) :=
        nodupKeys_map_fst _ htnd htinj
      rw [lookupKV_extendKV _ _ htmnd, lookupKV_extendKV _ _ hpmnd]
      have hpeq : ∀ k0 v0, lookupKV (persSeg m) k0 = some v0 →
          lookupKV ((persSeg m).map (fun kv => (conv.addPersistent kv.1, kv.2)))
            (conv.addPersistent k0) = lookupKV (persSeg m) k0 := by
        intro k0 v0 hl
        exact lookupKV_map_fst_inj _ _
          (fun k' hk' he => hpinj k' hk' k0 (mem_keysOf_of_lookupKV _ _ _ hl) he)
      have hteq : ∀ k0 v0, lookupKV (transSeg m) k0 = some v0 →
          lookupKV ((transSeg m).map (fun kv => (conv.addTransient kv.1, kv.2)))
            (conv.addTransient k0) = lookupKV (transSeg m) k0 := by
        intro k0 v0 hl
        exact lookupKV_map_fst_inj _ _
          (fun k' hk' he => htinj k' hk' k0 (mem_keysOf_of_lookupKV _ _ _ hl) he)
      cases htm : lookupKV ((transSeg m).map (fun kv => (conv.addTransient kv.1, kv.2))) key with
      | some v' =>
        simp only [Option.orElse, htm]
        constructor
        · intro hv
          obtain ⟨k0, hk0, hl⟩ := lookupKV_map_fst_inv _ _ _ htm
          exact Or.inr ⟨k0, hk0, by rw [hl]; exact congrArg _ (Option.some.inj hv)⟩
        · intro hd
          cases hd with
          | inl hleft =>
            obtain ⟨k0, hk0, hl⟩ := hleft
            obtain ⟨k2, hk2, hl2⟩ := lookupKV_map_fst_inv _ _ _ htm
            exact absurd (hk0.symm.trans hk2)
              (hcross k0 (mem_keysOf_of_lookupKV _ _ _ hl)
                k2 (mem_keysOf_of_lookupKV _ _ _ hl2))
          | inr hright =>
            obtain ⟨k0, hk0, hl⟩ := hright
            rw [hk0, hteq k0 v hl, hl] at htm
            exact htm.symm
      | none =>
        simp only [Option.orElse, htm]
        cases hpm : lookupKV ((persSeg m).map (fun kv => (conv.addPersistent kv.1, kv.2))) key with
        | some v' =>
          simp only [Option.orElse, hpm]
          constructor
          · intro hv
            obtain ⟨k0, hk0, hl⟩ := lookupKV_map_fst_inv _ _ _ hpm
            exact Or.inl ⟨k0, hk0, by rw [hl]; exact congrArg _ (Option.some.inj hv)⟩
          · intro hd
            cases hd with
            | inl hleft =>
              obtain ⟨k0, hk0, hl⟩ := hleft
              rw [hk0, hpeq k0 v hl, hl] at hpm
              exact hpm.symm
            | inr hright =>
              obtain ⟨k0, hk0, hl⟩ := hright
              rw [hk0, hteq k0 v hl, hl] at htm
              exact Option.noConfusion htm
        | none =>
          simp only [Option.orElse, hpm, lookupKV]
          constructor
          · intro hv
            exact Option.noConfusion hv
          · intro hd
            cases hd with
            | inl hleft =>
              obtain ⟨k0, hk0, hl⟩ := hleft
              rw [hk0, hpeq k0 v hl, hl] at hpm
              exact Option.noConfusion hpm
            | inr hright =>
              obtain ⟨k0, hk0, hl⟩ := hright
              rw [hk0, hteq k0 v hl, hl] at htm
              exact Option.noConfusion htm

/-- Witness for `c5_bulk_export`: its hypotheses hold at a concrete context
with one persistent entry and the RPC converter. -/
theorem c5_bulk_export_witness :
    (MetaInfo.new.setPersistent (chs "TEST_KEY")
        (chs "v")).getAllPersistentsAndTransients rpcConv = none
      ↔ persSeg (MetaInfo.new.setPersistent (chs "TEST_KEY") (chs "v")) = []
        ∧ transSeg (MetaInfo.new.setPersistent (chs "TEST_KEY") (chs "v")) = [] :=
  (c5_bulk_export (MetaInfo.new.setPersistent (chs "TEST_KEY") (chs "v")) rpcConv
    (by decide) (by decide) (by decide) (by decide) (by decide)).1

/-! ## C6 -/

/-- C6: `strip_rpc_prefix_and_set_persistent("RPC_PERSIST_TEST_KEY","v")`
makes `get_persistent("TEST_KEY")` return `Some("v")`; and for every key
that does not start with the expected exact prefix, each of the six
strip-prefix-and-set operations performs no write at all (the context is
returned unchanged), so on a fresh context a subsequent get of the
unprefixed key returns `None`. -/
theorem c6_strip_prefix_guard (m : MetaInfo) (key v : Str) :
    ((MetaInfo.new.stripRpcPrefixAndSetPersistent (chs "RPC_PERSIST_TEST_KEY")
        (chs "v")).getPersistent (chs "TEST_KEY") = some (chs "v"))
    ∧ (¬ RPC_PREFIX_PERSISTENT <+: key → m.stripRpcPrefixAndSetPersistent key v = m)
    ∧ (¬ RPC_PREFIX_TRANSIENT <+: key → m.stripRpcPrefixAndSetUpstream key v = m)
    ∧ (¬ RPC_PREFIX_BACKWARD <+: key →
        m.stripRpcPrefixAndSetBackwardDownstream key v = m)
    ∧ (¬ HTTP_PREFIX_PERSISTENT <+: key → m.stripHttpPrefixAndSetPersistent key v = m)
    ∧ (¬ HTTP_PREFIX_TRANSIENT <+: key → m.stripHttpPrefixAndSetUpstream key v = m)
    ∧ (¬ HTTP_PREFIX_BACKWARD <+: key →
        m.stripHttpPrefixAndSetBackwardDownstream key v = m)
    ∧ (MetaInfo.new.stripRpcPrefixAndSetPersistent (chs "TEST_KEY") (chs "v")
        = MetaInfo.new)
    ∧ ((MetaInfo.new.stripRpcPrefixAndSetPersistent (chs "TEST_KEY")
        (chs "v")).getPersistent (chs "TEST_KEY") = none) := by
  refine ⟨by decide, ?_, ?_, ?_, ?_, ?_, ?_, by decide, by decide⟩
  · intro h
    have hs := stripPre_eq_none_of_not_isPre _ _ h
    simp [MetaInfo.stripRpcPrefixAndSetPersistent, RpcConverter.removePersistentPrefix,
      RpcConverter.removePrefix, hs]
  · intro h
    have hs := stripPre_eq_none_of_not_isPre _ _ h
    simp [MetaInfo.stripRpcPrefixAndSetUpstream, RpcConverter.removeTransientPrefix,
      RpcConverter.removePrefix, hs]
  · intro h
    have hs := stripPre_eq_none_of_not_isPre _ _ h
    simp [MetaInfo.stripRpcPrefixAndSetBackwardDownstream,
      RpcConverter.removeBackwardPrefix, RpcConverter.removePrefix, hs]
  · intro h
    have hs := stripPre_eq_none_of_not_isPre _ _ h
    simp [MetaInfo.stripHttpPrefixAndSetPersistent,
      HttpConverter.removePersistentPrefix,
      HttpConverter.removePrefixAndToRpcFormat, hs]
  · intro h
    have hs := stripPre_eq_none_of_not_isPre _ _ h
    simp [MetaInfo.stripHttpPrefixAndSetUpstream,
      HttpConverter.removeTransientPrefix,
      HttpConverter.removePrefixAndToRpcFormat, hs]
  · intro h
    have hs := stripPre_eq_none_of_not_isPre _ _ h
    simp [MetaInfo.stripHttpPrefixAndSetBackwardDownstream,
      HttpConverter.removeBackwardPrefix,
      HttpConverter.removePrefixAndToRpcFormat, hs]

/-! ## C7 -/

theorem extendSeg_spec (x y : Option SMap) (hy : NodupKeys (y.getD [])) :
    (y = none → Node.extendSeg x y = x)
    ∧ (∀ mb, y = some mb → x = none → Node.extendSeg x y = some mb)
    ∧ (∀ mb ma, y = some mb → x = some ma →
        ∃ mr, Node.extendSeg x y = some mr ∧
          ∀ k, lookupKV mr k
            = Option.orElse (lookupKV mb k) (fun _ => lookupKV ma k)) := by
  refine ⟨?_, ?_, ?_⟩
  · intro h
    subst h
    cases x <;> rfl
  · intro mb hyb hx
    subst hyb
    subst hx
    rfl
  · intro mb ma hyb hx
    subst hyb
    subst hx
    refine ⟨extendKV ma mb, rfl, fun k => ?_⟩
    exact lookupKV_extendKV ma mb (by simpa using hy) k

/-- C7: `Node::extend(other)`, per segment (persistent/transient/stale): a
segment absent in `other` leaves the local one unchanged; a segment present
in `other` is adopted wholesale when absent locally, and otherwise merged
key-by-key with `other`'s value winning on every key present in both while
keys present in only one side keep their value (stated as: every lookup in
the merged segment equals the lookup in `other`'s segment, falling back to
the local one). The `NodupKeys` hypotheses are the hash-map representation
invariant of `other`'s segments. -/
theorem c7_kv_extend (a b : Node)
    (hp : NodupKeys (b.persistent.getD []))
    (ht : NodupKeys (b.transient.getD []))
    (hs : NodupKeys (b.stale.getD [])) :
    ((b.persistent = none → (a.extend b).persistent = a.persistent)
      ∧ (∀ mb, b.persistent = some mb → a.persistent = none →
          (a.extend b).persistent = some mb)
      ∧ (∀ mb ma, b.persistent = some mb → a.persistent = some ma →
          ∃ mr, (a.extend b).persistent = some mr ∧
            ∀ k, lookupKV mr k
              = Option.orElse (lookupKV mb k) (fun _ => lookupKV ma k)))
    ∧ ((b.transient = none → (a.extend b).transient = a.transient)
      ∧ (∀ mb, b.transient = some mb → a.transient = none →
          (a.extend b).transient = some mb)
      ∧ (∀ mb ma, b.transient = some mb → a.transient = some ma →
          ∃ mr, (a.extend b).transient = some mr ∧
            ∀ k, lookupKV mr k
              = Option.orElse (lookupKV mb k) (fun _ => lookupKV ma k)))
    ∧ ((b.stale = none → (a.extend b).stale = a.stale)
      ∧ (∀ mb, b.stale = some mb → a.stale = none →
          (a.extend b).stale = some mb)
      ∧ (∀ mb ma, b.stale = some mb → a.stale = some ma →
          ∃ mr, (a.extend b).stale = some mr ∧
            ∀ k, lookupKV mr k
              = Option.orElse (lookupKV mb k) (fun _ => lookupKV ma k))) :=
  ⟨extendSeg_spec a.persistent b.persistent hp,
   extendSeg_spec a.transient b.transient ht,
   extendSeg_spec a.stale b.stale hs⟩

/-- Witness for `c7_kv_extend`: at concrete nodes whose persistent segments
overlap on `"x"`, the merged value at `"x"` is `other`'s, while `"y"` and
`"z"` keep their unique values. -/
theorem c7_kv_extend_witness :
    ∃ mr,
      ((Node.mk (some [(chs "x", chs "1"), (chs "y", chs "2")]) none none).extend
        (Node.mk (some [(chs "x", chs "9"), (chs "z", chs "3")]) none none)).persistent
        = some mr
      ∧ ∀ k, lookupKV mr k
          = Option.orElse (lookupKV [(chs "x", chs "9"), (chs "z", chs "3")] k)
              (fun _ => lookupKV [(chs "x", chs "1"), (chs "y", chs "2")] k) :=
  ((c7_kv_extend (Node.mk (some [(chs "x", chs "1"), (chs "y", chs "2")]) none none)
      (Node.mk (some [(chs "x", chs "9"), (chs "z", chs "3")]) none none)
      (by decide) (by decide) (by decide)).1).2.2
    [(chs "x", chs "9"), (chs "z", chs "3")]
    [(chs "x", chs "1"), (chs "y", chs "2")] rfl rfl

/-! ## C8 -/

theorem chainFind_derive_snd {V : Type} (m : MetaInfo) (g : Frame → Option V)
    (hfresh : ∀ fwd bwd, g ⟨none, none, none, fwd, bwd⟩ = none)
    (hpromo : g { m.top with forwardNode := none, backwardNode := none } = g m.top) :
    chainFind g (m.derive.2.top :: m.derive.2.ancestors)
      = chainFind g (m.top :: m.ancestors) := by
  obtain ⟨⟨mt, ms, mf, fwd, bwd⟩, anc⟩ := m
  by_cases hc : mt = none ∧ ms = none ∧ mf = none
  · obtain ⟨h1, h2, h3⟩ := hc
    subst h1
    subst h2
    subst h3
    rw [MetaInfo.derive, if_pos ⟨rfl, rfl, rfl⟩]
  · rw [MetaInfo.derive, if_neg hc]
    show chainFind g (⟨none, none, none, fwd, bwd⟩
          :: ⟨mt, ms, mf, none, none⟩ :: anc)
        = chainFind g (⟨mt, ms, mf, fwd, bwd⟩ :: anc)
    rw [chainFind, hfresh]
    rw [chainFind, chainFind]
    rw [show g ⟨mt, ms, mf, none, none⟩ = g ⟨mt, ms, mf, fwd, bwd⟩ from hpromo]

/-- C8: `clear()` drops the parent link and empties the local typed store,
faststr store, string map and both forward/backward nodes (every local
lookup on the cleared context returns `none`), while every other context —
in particular one derived from, or built `from`, this context before the
clear — is a value of its own whose scope chain and nodes were snapshotted
at derivation time, so it still observes all pre-clear data: its lookups
equal the original's. -/
theorem c8_clear (m : MetaInfo) (t ft : TypeId) (k : Str) :
    (m.clear.parentCtx = none ∧ m.clear.ancestors = [])
    ∧ (m.clear.get t = none ∧ m.clear.getString k = none
      ∧ m.clear.getFaststr ft = none)
    ∧ (m.clear.getPersistent k = none ∧ m.clear.getTransient k = none
      ∧ m.clear.getUpstream k = none ∧ m.clear.getBackwardTransient k = none
      ∧ m.clear.getBackwardDownstream k = none)
    ∧ (m.derive.2.get t = m.get t ∧ m.derive.2.getString k = m.getString k
      ∧ m.derive.2.getFaststr ft = m.getFaststr ft)
    ∧ ((MetaInfo.fromParent m).get t = m.get t
      ∧ (MetaInfo.fromParent m).top.forwardNode = m.top.forwardNode
      ∧ (MetaInfo.fromParent m).top.backwardNode = m.top.backwardNode) := by
  refine ⟨⟨rfl, rfl⟩, ⟨?_, ?_, ?_⟩, ⟨?_, ?_, ?_, ?_, ?_⟩, ⟨?_, ?_, ?_⟩, ⟨?_, rfl, rfl⟩⟩
  · show chainFind (tmapHit t) (m.clear.top :: []) = none
    cases hmt : m.top.tmap <;>
      simp [MetaInfo.clear, chainFind, tmapHit, hmt, lookupKV]
  · show chainFind (smapHit k) (m.clear.top :: []) = none
    cases hms : m.top.smap <;>
      simp [MetaInfo.clear, chainFind, smapHit, hms, lookupKV]
  · show chainFind (fmapHit ft) (m.clear.top :: []) = none
    cases hmf : m.top.faststrTmap <;>
      simp [MetaInfo.clear, chainFind, fmapHit, hmf, lookupKV]
  · cases hfn : m.top.forwardNode with
    | none => simp [MetaInfo.getPersistent, MetaInfo.clear, hfn]
    | some n =>
      cases hseg : n.persistent <;>
        simp [MetaInfo.getPersistent, MetaInfo.clear, hfn, Node.clear,
          Node.getPersistent, Node.getSeg, hseg, lookupKV]
  · cases hfn : m.top.forwardNode with
    | none => simp [MetaInfo.getTransient, MetaInfo.clear, hfn]
    | some n =>
      cases hseg : n.transient <;>
        simp [MetaInfo.getTransient, MetaInfo.clear, hfn, Node.clear,
          Node.getTransient, Node.getSeg, hseg, lookupKV]
  · cases hfn : m.top.forwardNode with
    | none => simp [MetaInfo.getUpstream, MetaInfo.clear, hfn]
    | some n =>
      cases hseg : n.stale <;>
        simp [MetaInfo.getUpstream, MetaInfo.clear, hfn, Node.clear,
          Node.getStale, Node.getSeg, hseg, lookupKV]
  · cases hbn : m.top.backwardNode with
    | none => simp [MetaInfo.getBackwardTransient, MetaInfo.clear, hbn]
    | some n =>
      cases hseg : n.transient <;>
        simp [MetaInfo.getBackwardTransient, MetaInfo.clear, hbn, Node.clear,
          Node.getTransient, Node.getSeg, hseg, lookupKV]
  · cases hbn : m.top.backwardNode with
    | none => simp [MetaInfo.getBackwardDownstream, MetaInfo.clear, hbn]
    | some n =>
      cases hseg : n.stale <;>
        simp [MetaInfo.getBackwardDownstream, MetaInfo.clear, hbn, Node.clear,
          Node.getStale, Node.getSeg, hseg, lookupKV]
  · exact chainFind_derive_snd m (tmapHit t) (fun _ _ => rfl) rfl
  · exact chainFind_derive_snd m (smapHit k) (fun _ _ => rfl) rfl
  · exact chainFind_derive_snd m (fmapHit ft) (fun _ _ => rfl) rfl
  · show chainFind (tmapHit t) ((MetaInfo.fromParent m).top :: m.top :: m.ancestors)
        = chainFind (tmapHit t) (m.top :: m.ancestors)
    rw [chainFind]
    rfl

/-! ## C9 -/

/-- C9: every forward/backward segment getter (including the `get_all_*`
variants) reads only the context's own node — its result is invariant under
replacing the whole ancestor chain — and in the promoting branch of
`derive()` the forward/backward nodes are moved out of the original, so the
promoted parent frame (the nearest ancestor of both children) retains no
forward/backward node. -/
theorem c9_node_getters_local (f : Frame) (anc anc2 : List Frame) (k : Str)
    (m : MetaInfo) :
    (MetaInfo.getPersistent ⟨f, anc⟩ k = MetaInfo.getPersistent ⟨f, anc2⟩ k
      ∧ MetaInfo.getTransient ⟨f, anc⟩ k = MetaInfo.getTransient ⟨f, anc2⟩ k
      ∧ MetaInfo.getUpstream ⟨f, anc⟩ k = MetaInfo.getUpstream ⟨f, anc2⟩ k
      ∧ MetaInfo.getBackwardTransient ⟨f, anc⟩ k
          = MetaInfo.getBackwardTransient ⟨f, anc2⟩ k
      ∧ MetaInfo.getBackwardDownstream ⟨f, anc⟩ k
          = MetaInfo.getBackwardDownstream ⟨f, anc2⟩ k)
    ∧ (MetaInfo.getAllPersistents ⟨f, anc⟩ = MetaInfo.getAllPersistents ⟨f, anc2⟩
      ∧ MetaInfo.getAllTransients ⟨f, anc⟩ = MetaInfo.getAllTransients ⟨f, anc2⟩
      ∧ MetaInfo.getAllUpstreams ⟨f, anc⟩ = MetaInfo.getAllUpstreams ⟨f, anc2⟩
      ∧ MetaInfo.getAllBackwardTransients ⟨f, anc⟩
          = MetaInfo.getAllBackwardTransients ⟨f, anc2⟩
      ∧ MetaInfo.getAllBackwardDownstreams ⟨f, anc⟩
          = MetaInfo.getAllBackwardDownstreams ⟨f, anc2⟩)
    ∧ (¬ (m.top.tmap = none ∧ m.top.smap = none ∧ m.top.faststrTmap = none) →
        (m.derive.1.ancestors.head?
            = some { m.top with forwardNode := none, backwardNode := none }
          ∧ m.derive.2.ancestors.head?
            = some { m.top with forwardNode := none, backwardNode := none }
          ∧ m.derive.1.top.forwardNode = m.top.forwardNode
          ∧ m.derive.2.top.forwardNode = m.top.forwardNode
          ∧ m.derive.1.top.backwardNode = m.top.backwardNode
          ∧ m.derive.2.top.backwardNode = m.top.backwardNode)) := by
  refine ⟨⟨rfl, rfl, rfl, rfl, rfl⟩, ⟨rfl, rfl, rfl, rfl, rfl⟩, ?_⟩
  intro h
  rw [MetaInfo.derive, if_neg h]
  exact ⟨rfl, rfl, rfl, rfl, rfl, rfl⟩

/-! ## C10 -/

/-- C10: `strip_rpc_prefix_and_set_upstream` strips the RPC *transient*
prefix but stores the value into the stale (upstream) segment: after
`strip_rpc_prefix_and_set_upstream("RPC_TRANSIT_TEST_KEY","v")`,
`get_upstream("TEST_KEY")` is `Some("v")` while `get_transient("TEST_KEY")`
is `None` and the forward persistent+transient bulk export is `None`; in
general the operation leaves the persistent and transient segments — and
hence every bulk export — unchanged, and makes `get_upstream` of the
stripped key return the value. -/
theorem c10_strip_set_upstream (m : MetaInfo) (key v k2 : Str) :
    ((MetaInfo.new.stripRpcPrefixAndSetUpstream (chs "RPC_TRANSIT_TEST_KEY")
        (chs "v")).getUpstream (chs "TEST_KEY") = some (chs "v"))
    ∧ ((MetaInfo.new.stripRpcPrefixAndSetUpstream (chs "RPC_TRANSIT_TEST_KEY")
        (chs "v")).getTransient (chs "TEST_KEY") = none)
    ∧ ((MetaInfo.new.stripRpcPrefixAndSetUpstream (chs "RPC_TRANSIT_TEST_KEY")
        (chs "v")).getAllPersistentsAndTransientsWithRpcPrefix = none)
    ∧ ((m.stripRpcPrefixAndSetUpstream key v).getTransient k2 = m.getTransient k2)
    ∧ ((m.stripRpcPrefixAndSetUpstream key v).getPersistent k2 = m.getPersistent k2)
    ∧ (∀ conv, (m.stripRpcPrefixAndSetUpstream key v).getAllPersistentsAndTransients
        conv = m.getAllPersistentsAndTransients conv)
    ∧ (∀ kk, RpcConverter.removeTransientPrefix key = some kk →
        (m.stripRpcPrefixAndSetUpstream key v).getUpstream kk = some v) := by
  refine ⟨by decide, by decide, by decide, ?_, ?_, ?_, ?_⟩
  · cases hrem : RpcConverter.removeTransientPrefix key with
    | none => simp [MetaInfo.stripRpcPrefixAndSetUpstream, hrem]
    | some kk =>
      cases hfn : m.top.forwardNode with
      | none =>
        simp [MetaInfo.stripRpcPrefixAndSetUpstream, hrem, MetaInfo.setUpstream,
          MetaInfo.getTransient, MetaInfo.ensureNode, hfn, Node.emptyNode,
          Node.setStale, Node.getTransient, Node.getSeg]
      | some n =>
        simp [MetaInfo.stripRpcPrefixAndSetUpstream, hrem, MetaInfo.setUpstream,
          MetaInfo.getTransient, MetaInfo.ensureNode, hfn,
          Node.setStale, Node.getTransient, Node.getSeg]
  · cases hrem : RpcConverter.removeTransientPrefix key with
    | none => simp [MetaInfo.stripRpcPrefixAndSetUpstream, hrem]
    | some kk =>
      cases hfn : m.top.forwardNode with
      | none =>
        simp [MetaInfo.stripRpcPrefixAndSetUpstream, hrem, MetaInfo.setUpstream,
          MetaInfo.getPersistent, MetaInfo.ensureNode, hfn, Node.emptyNode,
          Node.setStale, Node.getPersistent, Node.getSeg]
      | some n =>
        simp [MetaInfo.stripRpcPrefixAndSetUpstream, hrem, MetaInfo.setUpstream,
          MetaInfo.getPersistent, MetaInfo.ensureNode, hfn,
          Node.setStale, Node.getPersistent, Node.getSeg]
  · intro conv
    cases hrem : RpcConverter.removeTransientPrefix key with
    | none => simp [MetaInfo.stripRpcPrefixAndSetUpstream, hrem]
    | some kk =>
      cases hfn : m.top.forwardNode with
      | none =>
        simp [MetaInfo.stripRpcPrefixAndSetUpstream, hrem, MetaInfo.setUpstream,
          MetaInfo.getAllPersistentsAndTransients, MetaInfo.ensureNode, hfn,
          Node.emptyNode, Node.setStale, Node.getAllPersistents,
          Node.getAllTransients]
      | some n =>
        simp [MetaInfo.stripRpcPrefixAndSetUpstream, hrem, MetaInfo.setUpstream,
          MetaInfo.getAllPersistentsAndTransients, MetaInfo.ensureNode, hfn,
          Node.setStale, Node.getAllPersistents, Node.getAllTransients]
  · intro kk hrem
    simp [MetaInfo.stripRpcPrefixAndSetUpstream, hrem, MetaInfo.setUpstream,
      MetaInfo.getUpstream, Node.setStale, Node.getStale, Node.getSeg,
      Node.setSeg, lookupKV_insertKV]
